import Mathlib

/-!
# my_food: the `Description` and `Ingredients` components of the single-card page

Shallow embedding of

* `src/frontend/src/pages/single-card/description/index.js`
* `src/frontend/src/pages/single-card/ingredients/index.js`

A JavaScript string is the list of its UTF-16 code units, which is what
`charAt`, `slice`, `length`, `trim` and `split` work on.  A React element is a
`VNode`; a `className={styles.x}` is recorded as the name `x` of the style-module
entry.  Children that React does not output (`null`, `false`) are left out of a
children list and child arrays are spliced in place.
-/

namespace MyFood

/-! ## JavaScript strings -/

/-- A JavaScript string: its UTF-16 code units. -/
abbrev JSString := List Nat

/-- UTF-16 code units of one Unicode scalar value. -/
def utf16Char (c : Char) : JSString :=
  if c.toNat < 0x10000 then [c.toNat]
  else [0xD800 + (c.toNat - 0x10000) / 0x400, 0xDC00 + (c.toNat - 0x10000) % 0x400]

/-- The JavaScript string written as the literal `s`. -/
def js (s : String) : JSString :=
  s.toList.flatMap utf16Char

/-- Line feed, `\n`. -/
def LF : Nat := 0x0A

/-- Carriage return, `\r`. -/
def CR : Nat := 0x0D

/-- Code units that `String.prototype.trim` strips (and that `\s` matches):
ECMAScript WhiteSpace (TAB, VT, FF, SP, NBSP, ZWNBSP and the category Zs) and
LineTerminator (LF, CR, LS, PS). -/
def isWhiteSpace (c : Nat) : Bool :=
  c == 0x09 || c == 0x0A || c == 0x0B || c == 0x0C || c == 0x0D || c == 0x20 ||
  c == 0xA0 || c == 0x1680 || (0x2000 ≤ c && c ≤ 0x200A) || c == 0x2028 ||
  c == 0x2029 || c == 0x202F || c == 0x205F || c == 0x3000 || c == 0xFEFF

/-- `String.prototype.trimStart`. -/
def trimStart (s : JSString) : JSString :=
  s.dropWhile isWhiteSpace

/-- `String.prototype.trimEnd`. -/
def trimEnd (s : JSString) : JSString :=
  (s.reverse.dropWhile isWhiteSpace).reverse

/-- `String.prototype.trim`. -/
def trim (s : JSString) : JSString :=
  trimEnd (trimStart s)

/-! ## JavaScript numbers -/

/-- A JavaScript number.  A finite number other than zero is given by its sign
and by the shortest decimal that denotes it, the way `Number::toString` takes
it: the decimal digits of the integer `s`, first digit not zero, and the
exponent `n`, the value being `s × 10^(n - k)` for `k` the number of digits.
So `200` has the digits `2` and `n = 3`, `0.5` the digits `5` and `n = 0`,
`1e21` the digits `1` and `n = 22`. -/
inductive JSNumber where
  | nan
  | infinity (negative : Bool)
  | zero (negative : Bool)
  | finite (negative : Bool) (digits : List Nat) (n : Int)

/-- The code units of a list of decimal digits. -/
def digitUnits (digits : List Nat) : JSString :=
  digits.map (fun d => 0x30 + d)

/-- The code units of the decimal representation of a natural number. -/
def decimal (m : Nat) : JSString :=
  (Nat.toDigits 10 m).map Char.toNat

/-- The steps of `Number::toString` (radix 10) that write a positive finite
number from its digits and its exponent `n`: plain digits with `n - k` zeros
appended, or a decimal point inside the digits, or `0.` and `-n` zeros in front
of them, when `-5 ≤ n ≤ 21`; else the exponent form with `e`, the sign and the
decimal of `abs (n - 1)`. -/
def finiteToString (digits : List Nat) (n : Int) : JSString :=
  if -5 ≤ n ∧ n ≤ 21 then
    if (digits.length : Int) ≤ n then
      digitUnits digits ++ List.replicate (n - digits.length).toNat 0x30
    else if 0 < n then
      digitUnits (digits.take n.toNat) ++ [0x2E] ++ digitUnits (digits.drop n.toNat)
    else
      [0x30, 0x2E] ++ List.replicate (-n).toNat 0x30 ++ digitUnits digits
  else
    (if digits.length = 1 then digitUnits digits
     else digitUnits (digits.take 1) ++ [0x2E] ++ digitUnits (digits.drop 1)) ++
    [0x65] ++ (if n - 1 < 0 then [0x2D] else [0x2B]) ++ decimal (n - 1).natAbs

/-- `Number::toString`, the `ToString` of a number: `NaN`, `0` for both zeros,
`Infinity`, and a minus sign in front of a negative number. -/
def numberToString : JSNumber → JSString
  | .nan => js "NaN"
  | .infinity negative => (if negative then [0x2D] else []) ++ js "Infinity"
  | .zero _ => [0x30]
  | .finite negative digits n => (if negative then [0x2D] else []) ++ finiteToString digits n

/-! ## The regular expression `/\n{2,}|\r{2,}/` and `split` -/

/-- The greedy quantified atom `c{2,}` tried at the head of `s`: the number of
code units it consumes, `none` when fewer than two `c` stand there. -/
def matchRun (c : Nat) (s : JSString) : Option Nat :=
  if 2 ≤ (s.takeWhile (fun x => x == c)).length then
    some (s.takeWhile (fun x => x == c)).length
  else none

/-- The regular expression `/\n{2,}|\r{2,}/` tried at the head of `s` (the
left alternative first): the length of the match, or `none`. -/
def paragraphBoundary (s : JSString) : Option Nat :=
  match matchRun LF s with
  | some n => some n
  | none => matchRun CR s

/-- The scan of `String.prototype.split(re)` for a regular expression `re`
without capture groups whose matches are never empty.  `cur` holds, reversed,
the code units since the end of the last match; `skip` is the number of code
units of the current match still to pass over.  At a position where `re`
matches the segment is closed and the scan resumes after the match; elsewhere
the position advances by one. -/
def splitScan (re : JSString → Option Nat) : Nat → JSString → JSString → List JSString
  | _, cur, [] => [cur.reverse]
  | skip + 1, cur, _ :: s => splitScan re skip cur s
  | 0, cur, c :: s =>
    match re (c :: s) with
    | some (e + 1) => cur.reverse :: splitScan re e [] s
    | _ => splitScan re 0 (c :: cur) s

/-- `s.split(/\n{2,}|\r{2,}/)`. -/
def split (s : JSString) : List JSString :=
  splitScan paragraphBoundary 0 [] s

/-- The `paragraphs` constant of `Description`:
`String(description).trim().split(/\n{2,}|\r{2,}/).map((p) => p.trim()).filter(Boolean)`. -/
def paragraphs (description : JSString) : List JSString :=
  ((split (trim description)).map trim).filter (fun p => !p.isEmpty)

/-! ## React elements -/

/-- The `key` prop of an element as the JSX gives it: an array index or a
string. -/
inductive Key where
  | index (i : Nat)
  | str (s : JSString)

/-- What a component returns: text, a number, or an element with its tag,
style-module class, further attributes, key and children. -/
inductive VNode where
  | text (s : JSString)
  | num (n : JSNumber)
  | elem (tag : String) (className : String) (attrs : List (String × String))
      (key : Option Key) (children : List VNode)

/-- `Array.prototype.map` with the callback given the element and its index,
counting from `i`. -/
def mapWithIndex {α β : Type} (f : α → Nat → β) : Nat → List α → List β
  | _, [] => []
  | i, a :: as => f a i :: mapWithIndex f (i + 1) as

/-! ## `Description` -/

/-- The `description` prop: absent, `null`, or a string. -/
inductive DescriptionProp where
  | undefined
  | null
  | str (s : JSString)

/-- The inner function `renderWithDropcap`: `null` for the empty text, else a
paragraph whose first child is the hidden dropcap span holding `text.charAt(0)`
and whose second child is `text.slice(1)`. -/
def renderWithDropcap (text : JSString) : Option VNode :=
  if text.isEmpty then none
  else
    let firstChar := text.take 1
    let rest := text.drop 1
    some (.elem "p" "paragraph" [] none
      [.elem "span" "dropcap" [("aria-hidden", "true")] none [.text firstChar],
       .text rest])

/-- The plain paragraph `<p key={idx} className={styles.paragraph}>{p}</p>`. -/
def plainParagraph (p : JSString) (idx : Nat) : VNode :=
  .elem "p" "paragraph" [] (some (.index idx)) [.text p]

/-- The children of the content `div`:
`paragraphs.length > 0 && renderWithDropcap(paragraphs[0])` and then
`paragraphs.slice(1).map(...)`. -/
def contentChildren (ps : List JSString) : List VNode :=
  (if 0 < ps.length then (renderWithDropcap (ps.headD [])).toList else []) ++
  mapWithIndex plainParagraph 0 (ps.drop 1)

/-- The component `Description`; `none` is the `null` it returns. -/
def Description : DescriptionProp → Option VNode
  | .undefined => none
  | .null => none
  | .str description =>
    if description.isEmpty then none
    else
      some (.elem "section" "description"
        [("role", "article"), ("aria-label", "Описание рецепта")] none
        [.elem "header" "header" [] none
           [.elem "h3" "title" [] none [.text (js "Описание")],
            .elem "div" "decor" [] none []],
         .elem "div" "content" [] none (contentChildren (paragraphs description))])

/-! ## `Ingredients` -/

/-- The `amount` of an ingredient record: a number or a string. -/
inductive Amount where
  | num (n : JSNumber)
  | str (s : JSString)

/-- `ToString` of an amount, as the template literal of the key applies it. -/
def Amount.toJSString : Amount → JSString
  | .num n => numberToString n
  | .str s => s

/-- The child `{amount}`: the value itself, a number or a text. -/
def Amount.child : Amount → VNode
  | .num n => .num n
  | .str s => .text s

/-- One ingredient record `{ name, amount, measurement_unit }`. -/
structure IngredientRecord where
  name : JSString
  amount : Amount
  measurement_unit : JSString

/-- The `ingredients` prop: absent, `null`, an array of records, or any other
value, of which the component only reads whether it is truthy. -/
inductive IngredientsProp where
  | undefined
  | null
  | nonArray (truthy : Bool)
  | array (items : List IngredientRecord)

/-- JavaScript truthiness of the prop (an array is an object, hence truthy). -/
def IngredientsProp.truthy : IngredientsProp → Bool
  | .undefined => false
  | .null => false
  | .nonArray t => t
  | .array _ => true

/-- `Array.isArray`. -/
def IngredientsProp.isArray : IngredientsProp → Bool
  | .array _ => true
  | _ => false

/-- The elements of the prop when it is an array. -/
def IngredientsProp.items : IngredientsProp → List IngredientRecord
  | .array items => items
  | _ => []

/-- The key of a list item, the template literal
`${name}${amount}${measurement_unit}`. -/
def ingredientKey (r : IngredientRecord) : JSString :=
  r.name ++ r.amount.toJSString ++ r.measurement_unit

/-- The `li` that the callback of `ingredients.map` builds from one record. -/
def ingredientItem (r : IngredientRecord) : VNode :=
  .elem "li" "item" [] (some (.str (ingredientKey r)))
    [.elem "span" "itemName" [] none [.text r.name],
     .elem "span" "dot" [("aria-hidden", "true")] none [],
     .elem "span" "itemAmount" [] none
       [r.amount.child, .text (js " "), .text r.measurement_unit]]

/-- The component `Ingredients`; `none` is the `null` it returns. -/
def Ingredients (ingredients : IngredientsProp) : Option VNode :=
  if !ingredients.truthy || !ingredients.isArray || ingredients.items.length == 0 then
    none
  else
    some (.elem "section" "ingredientsCard"
      [("role", "region"), ("aria-label", "Ингредиенты рецепта")] none
      [.elem "header" "header" [] none
         [.elem "h3" "title" [] none [.text (js "Ингредиенты")],
          .elem "div" "decor" [] none []],
       .elem "ul" "list" [] none (ingredients.items.map ingredientItem)])

mutual
/-- The DOM `textContent` of a rendered node: its texts in document order, a
number child as `ToString` writes it. -/
def VNode.textContent : VNode → JSString
  | .text s => s
  | .num n => numberToString n
  | .elem _ _ _ _ children => textContentList children
/-- The concatenated `textContent` of a list of children. -/
def textContentList : List VNode → JSString
  | [] => []
  | c :: cs => c.textContent ++ textContentList cs
end

/-! ## Reading of the specification used for comparison -/

/-- Follows the words of the specification, not the source: a paragraph
boundary is a run of two or more consecutive code units each of which is a
newline or a carriage return, so that a run may mix the two. -/
def specBoundary (s : JSString) : Option Nat :=
  if 2 ≤ (s.takeWhile (fun x => x == LF || x == CR)).length then
    some (s.takeWhile (fun x => x == LF || x == CR)).length
  else none

/-- Follows the words of the specification, not the source: trim the text, cut
it at every boundary in the sense of `specBoundary`, trim each segment and drop
the empty ones. -/
def specParagraphs (description : JSString) : List JSString :=
  ((splitScan specBoundary 0 [] (trim description)).map trim).filter (fun p => !p.isEmpty)

/-! ## Predicates and examples of the statements -/

/-- Two neighbouring code units that are not a doubled newline and not a
doubled carriage return. -/
def Apart (a b : Nat) : Prop :=
  ¬(a = b ∧ (a = LF ∨ a = CR))

/-- A string without two consecutive newlines and without two consecutive
carriage returns. -/
def NoDouble (s : JSString) : Prop :=
  List.Chain' Apart s

/-- A string in which no newline stands next to a carriage return. -/
def Unmixed (s : JSString) : Prop :=
  List.Chain' (fun a b => ¬((a = LF ∧ b = CR) ∨ (a = CR ∧ b = LF))) s

/-- A segment that `split` gives back whole when it stands between two
`"\n\n"` separators: free of doubled line ends, not empty, and with no newline
at either end. -/
def Segment (p : JSString) : Prop :=
  NoDouble p ∧ (∃ a, p.head? = some a ∧ a ≠ LF) ∧ (∃ a, p.getLast? = some a ∧ a ≠ LF)

/-- A string with no whitespace at its start and none at its end. -/
def Trimmed (t : JSString) : Prop :=
  (∀ a, t.head? = some a → isWhiteSpace a = false) ∧
  (∀ a, t.getLast? = some a → isWhiteSpace a = false)

/-- The code units of a string that are not whitespace, in order. -/
def visible (s : JSString) : JSString :=
  s.filter (fun c => !isWhiteSpace c)

/-- The two segments of the description scenario of the specification. -/
def mixBake : List JSString :=
  [js "Mix well.", js "Bake at 200C."]

/-- The two records of the ingredient scenario of the specification:
flour, 200 g, and salt, 1 tsp; the number `200` has the digit `2` and the
exponent `3`, the number `1` the digit `1` and the exponent `1`. -/
def flourSalt : List IngredientRecord :=
  [⟨js "Flour", .num (.finite false [2] 3), js "g"⟩,
   ⟨js "Salt", .num (.finite false [1] 1), js "tsp"⟩]

/-- Three records whose amounts are the numbers `0.5`, `-1` and `1e21`. -/
def halfMinusHuge : List IngredientRecord :=
  [⟨js "Milk", .num (.finite false [5] 0), js "l"⟩,
   ⟨js "Ice", .num (.finite true [1] 1), js "C"⟩,
   ⟨js "Sand", .num (.finite false [1] 22), js "grains"⟩]

/-! ## Whitespace and the regular expression -/

theorem isWhiteSpace_LF : isWhiteSpace LF = true := by decide

theorem isWhiteSpace_CR : isWhiteSpace CR = true := by decide

theorem take_length_takeWhile (p : Nat → Bool) (s : JSString) :
    s.take (s.takeWhile p).length = s.takeWhile p := by
  induction s with
  | nil => rfl
  | cons a s ih =>
    by_cases h : p a = true
    · simp [List.takeWhile_cons_of_pos h, ih]
    · simp [List.takeWhile_cons_of_neg h]

theorem matchRun_some {c : Nat} {s : JSString} {n : Nat} (h : matchRun c s = some n) :
    2 ≤ n ∧ ∀ x ∈ s.take n, x = c := by
  unfold matchRun at h
  split at h
  · rename_i h2
    simp only [Option.some.injEq] at h
    subst h
    refine ⟨h2, ?_⟩
    rw [take_length_takeWhile]
    intro x hx
    simpa using (List.mem_takeWhile_imp hx)
  · exact absurd h (by simp)

theorem paragraphBoundary_some {s : JSString} {n : Nat} (h : paragraphBoundary s = some n) :
    2 ≤ n ∧ ∀ x ∈ s.take n, isWhiteSpace x = true := by
  unfold paragraphBoundary at h
  split at h
  · rename_i m hm
    simp only [Option.some.injEq] at h
    subst h
    obtain ⟨h2, hall⟩ := matchRun_some hm
    exact ⟨h2, fun x hx => by rw [hall x hx]; exact isWhiteSpace_LF⟩
  · obtain ⟨h2, hall⟩ := matchRun_some h
    exact ⟨h2, fun x hx => by rw [hall x hx]; exact isWhiteSpace_CR⟩

theorem matchRun_none_of_head {c a : Nat} {t : JSString}
    (h : ∀ d, t.head? = some d → ¬(a = c ∧ d = c)) : matchRun c (a :: t) = none := by
  unfold matchRun
  rw [if_neg]
  by_cases hac : a = c
  · subst hac
    cases t with
    | nil => simp
    | cons d t =>
      have hd : d ≠ a := fun hd => h d rfl ⟨rfl, hd⟩
      simp [List.takeWhile_cons, hd]
  · simp [List.takeWhile_cons, hac]

theorem paragraphBoundary_none_of_head {a : Nat} {t : JSString}
    (h : ∀ d, t.head? = some d → Apart a d) : paragraphBoundary (a :: t) = none := by
  unfold paragraphBoundary
  rw [matchRun_none_of_head, matchRun_none_of_head]
  · intro d hd ⟨h1, h2⟩
    exact h d hd ⟨by rw [h1, h2], Or.inr h1⟩
  · intro d hd ⟨h1, h2⟩
    exact h d hd ⟨by rw [h1, h2], Or.inl h1⟩

theorem apart_of_paragraphBoundary_none {a b : Nat} {t : JSString}
    (h : paragraphBoundary (a :: b :: t) = none) : Apart a b := by
  rintro ⟨rfl, ha | ha⟩ <;> subst ha <;>
    simp [paragraphBoundary, matchRun, List.takeWhile_cons, LF, CR] at h

theorem paragraphBoundary_LF_LF {t : JSString} (h : ∀ d, t.head? = some d → d ≠ LF) :
    paragraphBoundary (LF :: LF :: t) = some 2 := by
  cases t with
  | nil => rfl
  | cons d t =>
    have hd : d ≠ LF := h d rfl
    simp [paragraphBoundary, matchRun, List.takeWhile_cons, hd]

/-! ## The scan of `split` -/

theorem splitScan_nil (re : JSString → Option Nat) (k : Nat) (cur : JSString) :
    splitScan re k cur [] = [cur.reverse] := by
  cases k <;> rfl

theorem splitScan_skip (re : JSString → Option Nat) (k : Nat) (cur : JSString) (c : Nat)
    (s : JSString) : splitScan re (k + 1) cur (c :: s) = splitScan re k cur s := rfl

theorem splitScan_none {re : JSString → Option Nat} {cur : JSString} {c : Nat}
    {s : JSString} (h : re (c :: s) = none) :
    splitScan re 0 cur (c :: s) = splitScan re 0 (c :: cur) s := by
  simp only [splitScan, h]

theorem splitScan_some {re : JSString → Option Nat} {cur : JSString} {c : Nat}
    {s : JSString} {e : Nat} (h : re (c :: s) = some (e + 1)) :
    splitScan re 0 cur (c :: s) = cur.reverse :: splitScan re e [] s := by
  simp only [splitScan, h]

/-- A stretch without doubled line ends, whose end does not double with what
follows, is passed over without a cut. -/
theorem splitScan_append_noDouble (p : JSString) :
    ∀ (cur rest : JSString), NoDouble p →
      (∀ a b, p.getLast? = some a → rest.head? = some b → Apart a b) →
      splitScan paragraphBoundary 0 cur (p ++ rest) =
        splitScan paragraphBoundary 0 (p.reverse ++ cur) rest := by
  induction p with
  | nil => intro cur rest _ _; rfl
  | cons c p ih =>
    intro cur rest hp hj
    have hnone : paragraphBoundary (c :: (p ++ rest)) = none := by
      apply paragraphBoundary_none_of_head
      intro d hd
      cases p with
      | nil => exact hj c d rfl (by simpa using hd)
      | cons d' p' =>
        simp only [List.cons_append, List.head?_cons, Option.some.injEq] at hd
        subst hd
        exact (List.chain'_cons.1 hp).1
    rw [List.cons_append, splitScan_none hnone, ih (c :: cur) rest hp.tail]
    · simp
    · intro a b ha hb
      apply hj a b _ hb
      cases p with
      | nil => simp at ha
      | cons d' p' => simpa [List.getLast?_cons_cons] using ha

theorem intercalate_singleton (sep p : JSString) : List.intercalate sep [p] = p := by
  simp [List.intercalate]

theorem intercalate_cons_cons (sep p q : JSString) (ps : List JSString) :
    List.intercalate sep (p :: q :: ps) = p ++ (sep ++ List.intercalate sep (q :: ps)) := by
  simp [List.intercalate, List.intersperse]

theorem head?_intercalate_cons (sep p : JSString) (ps : List JSString) (hp : p ≠ []) :
    (List.intercalate sep (p :: ps)).head? = p.head? := by
  cases ps with
  | nil => rw [intercalate_singleton]
  | cons q ps =>
    rw [intercalate_cons_cons]
    cases p with
    | nil => exact absurd rfl hp
    | cons a p => rfl

/-- Segments joined by `"\n\n"` are given back by the scan, the first one
behind what the scan already holds. -/
theorem splitScan_intercalate (ps : List JSString) :
    ∀ (p cur : JSString), NoDouble p → (∃ a, p.getLast? = some a ∧ a ≠ LF) →
      (∀ q ∈ ps, Segment q) →
      splitScan paragraphBoundary 0 cur (List.intercalate [LF, LF] (p :: ps)) =
        (cur.reverse ++ p) :: ps := by
  induction ps with
  | nil =>
    intro p cur hp _ _
    have h := splitScan_append_noDouble p cur [] hp (by simp)
    rw [List.append_nil] at h
    rw [intercalate_singleton, h, splitScan_nil]
    simp
  | cons q ps ih =>
    intro p cur hp hlast hall
    obtain ⟨hq, ⟨a, hqa, hane⟩, hqlast⟩ := hall q (List.mem_cons_self _ _)
    have hqne : q ≠ [] := by
      intro h
      rw [h] at hqa
      simp at hqa
    rw [intercalate_cons_cons]
    rw [splitScan_append_noDouble p cur _ hp]
    · have hb : paragraphBoundary (LF :: LF :: List.intercalate [LF, LF] (q :: ps)) = some 2 := by
        apply paragraphBoundary_LF_LF
        intro d hd
        rw [head?_intercalate_cons _ _ _ hqne, hqa] at hd
        simp only [Option.some.injEq] at hd
        rw [← hd]
        exact hane
      show splitScan paragraphBoundary 0 (p.reverse ++ cur)
        (LF :: LF :: List.intercalate [LF, LF] (q :: ps)) = _
      rw [splitScan_some hb, splitScan_skip, ih q [] hq hqlast
        (fun r hr => hall r (List.mem_cons_of_mem _ hr))]
      simp
    · intro a b ha hb
      obtain ⟨a', ha', hne⟩ := hlast
      rw [ha] at ha'
      simp only [Option.some.injEq] at ha'
      subst ha'
      simp only [List.cons_append, List.head?_cons, Option.some.injEq] at hb
      subst hb
      rintro ⟨h1, _⟩
      exact hne h1

/-- Every segment that the scan gives out is free of doubled line ends. -/
theorem splitScan_noDouble (s : JSString) :
    ∀ (skip : Nat) (cur : JSString), NoDouble cur.reverse → (0 < skip → cur = []) →
      (∀ a cur', cur = a :: cur' → paragraphBoundary (a :: s) = none) →
      ∀ q ∈ splitScan paragraphBoundary skip cur s, NoDouble q := by
  induction s with
  | nil =>
    intro skip cur hcur _ _ q hq
    rw [splitScan_nil] at hq
    simp only [List.mem_singleton] at hq
    rw [hq]
    exact hcur
  | cons c s ih =>
    intro skip cur hcur hskip hhead q hq
    cases skip with
    | succ k =>
      have hc : cur = [] := hskip (Nat.succ_pos k)
      subst hc
      rw [splitScan_skip] at hq
      exact ih k [] List.chain'_nil (fun _ => rfl) (fun a cur' h => by simp at h) q hq
    | zero =>
      cases hb : paragraphBoundary (c :: s) with
      | none =>
        rw [splitScan_none hb] at hq
        refine ih 0 (c :: cur) ?_ (fun h => absurd h (Nat.lt_irrefl 0)) ?_ q hq
        · rw [List.reverse_cons]
          refine List.chain'_append.2 ⟨hcur, List.chain'_singleton c, ?_⟩
          intro x hx y hy
          simp only [List.head?_cons, Option.mem_def, Option.some.injEq] at hy
          subst hy
          simp only [List.getLast?_reverse, Option.mem_def] at hx
          cases cur with
          | nil => simp at hx
          | cons a cur' =>
            simp only [List.head?_cons, Option.some.injEq] at hx
            subst hx
            exact apart_of_paragraphBoundary_none (hhead _ cur' rfl)
        · intro a cur' h
          simp only [List.cons.injEq] at h
          rw [← h.1]
          exact hb
      | some n =>
        obtain ⟨h2, _⟩ := paragraphBoundary_some hb
        obtain ⟨e, rfl⟩ : ∃ e, n = e + 1 := ⟨n - 1, by omega⟩
        rw [splitScan_some hb] at hq
        rcases List.mem_cons.1 hq with hq | hq
        · rw [hq]
          exact hcur
        · exact ih e [] List.chain'_nil (fun _ => rfl) (fun a cur' h => by simp at h) q hq

/-- The scan removes whitespace only. -/
theorem visible_splitScan (s : JSString) :
    ∀ (skip : Nat) (cur : JSString), (∀ x ∈ s.take skip, isWhiteSpace x = true) →
      visible (splitScan paragraphBoundary skip cur s).flatten = visible (cur.reverse ++ s) := by
  induction s with
  | nil =>
    intro skip cur _
    rw [splitScan_nil]
    simp
  | cons c s ih =>
    intro skip cur hws
    cases skip with
    | succ k =>
      have hc : isWhiteSpace c = true := hws c (by simp)
      rw [splitScan_skip, ih k cur (fun x hx => hws x (by simp [hx]))]
      simp [visible, List.filter_cons, hc]
    | zero =>
      cases hb : paragraphBoundary (c :: s) with
      | none =>
        rw [splitScan_none hb, ih 0 (c :: cur) (by simp)]
        simp
      | some n =>
        obtain ⟨h2, hall⟩ := paragraphBoundary_some hb
        obtain ⟨e, rfl⟩ : ∃ e, n = e + 1 := ⟨n - 1, by omega⟩
        have hc : isWhiteSpace c = true := hall c (by simp)
        rw [splitScan_some hb, List.flatten_cons]
        unfold visible at ih ⊢
        rw [List.filter_append, ih e [] (fun x hx => hall x (by simp [hx]))]
        simp [List.filter_cons, hc]

/-! ## Trimming -/

theorem trimStart_eq_nil_iff (s : JSString) :
    trimStart s = [] ↔ ∀ c ∈ s, isWhiteSpace c = true :=
  List.dropWhile_eq_nil_iff

theorem trimEnd_eq_nil_iff (s : JSString) :
    trimEnd s = [] ↔ ∀ c ∈ s, isWhiteSpace c = true := by
  unfold trimEnd
  rw [List.reverse_eq_nil_iff, List.dropWhile_eq_nil_iff]
  simp

theorem trimStart_isSuffixOf (s : JSString) : trimStart s <:+ s :=
  List.dropWhile_suffix _

theorem trimEnd_isPrefixOf (s : JSString) : trimEnd s <+: s := by
  unfold trimEnd
  have h : s.reverse.dropWhile isWhiteSpace <:+ s.reverse := List.dropWhile_suffix _
  have h2 := List.reverse_prefix.2 h
  rwa [List.reverse_reverse] at h2

theorem trim_isInfixOf (s : JSString) : trim s <:+: s :=
  ((trimEnd_isPrefixOf (trimStart s)).isInfix).trans (trimStart_isSuffixOf s).isInfix

theorem trimStart_append (x y : JSString) :
    trimStart (x ++ y) = if (trimStart x).isEmpty then trimStart y else trimStart x ++ y :=
  List.dropWhile_append

theorem trimEnd_append (x y : JSString) :
    trimEnd (x ++ y) = if (trimEnd y).isEmpty then trimEnd x else x ++ trimEnd y := by
  unfold trimEnd
  rw [List.reverse_append, List.dropWhile_append]
  by_cases h : (List.dropWhile isWhiteSpace y.reverse).isEmpty = true
  · have h2 : (List.dropWhile isWhiteSpace y.reverse).reverse.isEmpty = true := by
      rw [List.isEmpty_iff] at h ⊢
      rw [h]
      rfl
    rw [if_pos h, if_pos h2]
  · have h2 : ¬ (List.dropWhile isWhiteSpace y.reverse).reverse.isEmpty = true := by
      rw [List.isEmpty_iff] at h ⊢
      rwa [List.reverse_eq_nil_iff]
    rw [if_neg h, if_neg h2, List.reverse_append, List.reverse_reverse]

theorem trimStart_of_head {t : JSString} (h : ∀ a, t.head? = some a → isWhiteSpace a = false) :
    trimStart t = t := by
  cases t with
  | nil => rfl
  | cons a t =>
    have ha : isWhiteSpace a = false := h a rfl
    simp [trimStart, List.dropWhile_cons, ha]

theorem trimEnd_of_getLast {t : JSString}
    (h : ∀ a, t.getLast? = some a → isWhiteSpace a = false) : trimEnd t = t := by
  have h2 : trimStart t.reverse = t.reverse :=
    trimStart_of_head (fun a ha => h a (by rwa [List.head?_reverse] at ha))
  unfold trimEnd
  unfold trimStart at h2
  rw [h2, List.reverse_reverse]

theorem trim_of_trimmed {t : JSString} (h : Trimmed t) : trim t = t := by
  unfold trim
  rw [trimStart_of_head h.1, trimEnd_of_getLast h.2]

theorem head_trimStart (s : JSString) :
    ∀ a, (trimStart s).head? = some a → isWhiteSpace a = false := by
  intro a ha
  have h := List.head?_dropWhile_not isWhiteSpace s
  unfold trimStart at ha
  rw [ha] at h
  exact h

theorem getLast_trimEnd (s : JSString) :
    ∀ a, (trimEnd s).getLast? = some a → isWhiteSpace a = false := by
  intro a ha
  unfold trimEnd at ha
  rw [List.getLast?_reverse] at ha
  have h := List.head?_dropWhile_not isWhiteSpace s.reverse
  rw [ha] at h
  exact h

theorem head_trimEnd {s : JSString} {a : Nat} (h : (trimEnd s).head? = some a) :
    s.head? = some a := by
  obtain ⟨t, ht⟩ := trimEnd_isPrefixOf s
  obtain ⟨ys, hys⟩ := List.head?_eq_some_iff.1 h
  rw [hys] at ht
  rw [← ht]
  rfl

theorem trimmed_trim (s : JSString) : Trimmed (trim s) :=
  ⟨fun a ha => head_trimStart s a (head_trimEnd ha), getLast_trimEnd _⟩

theorem trim_trim (s : JSString) : trim (trim s) = trim s :=
  trim_of_trimmed (trimmed_trim s)

theorem trimStart_trimStart (s : JSString) : trimStart (trimStart s) = trimStart s :=
  trimStart_of_head (head_trimStart s)

theorem trimEnd_trimEnd (s : JSString) : trimEnd (trimEnd s) = trimEnd s :=
  trimEnd_of_getLast (getLast_trimEnd s)

theorem trimEnd_cons (c : Nat) (r : JSString) :
    trimEnd (c :: r) = if (trimEnd r).isEmpty then trimEnd [c] else c :: trimEnd r :=
  trimEnd_append [c] r

theorem trimStart_trimEnd (s : JSString) : trimStart (trimEnd s) = trimEnd (trimStart s) := by
  induction s with
  | nil => rfl
  | cons c r ih =>
    by_cases hc : isWhiteSpace c = true
    · have hs : trimStart (c :: r) = trimStart r := by
        simp [trimStart, List.dropWhile_cons, hc]
      rw [hs, trimEnd_cons]
      by_cases hr : (trimEnd r).isEmpty = true
      · have hnil : trimEnd r = [] := List.isEmpty_iff.1 hr
        have hall := (trimEnd_eq_nil_iff r).1 hnil
        have h1 : trimStart r = [] := (trimStart_eq_nil_iff r).2 hall
        have h2 : trimEnd [c] = [] := (trimEnd_eq_nil_iff [c]).2 (by simpa using hc)
        rw [if_pos hr, h1, h2]
        rfl
      · rw [if_neg hr, ← ih]
        simp [trimStart, List.dropWhile_cons, hc]
    · have hc' : isWhiteSpace c = false := by simpa using hc
      have hs : trimStart (c :: r) = c :: r := by
        simp [trimStart, List.dropWhile_cons, hc']
      rw [hs]
      apply trimStart_of_head
      intro a ha
      have := head_trimEnd ha
      simp only [List.head?_cons, Option.some.injEq] at this
      rw [← this]
      exact hc'

theorem trim_trimStart (s : JSString) : trim (trimStart s) = trim s := by
  unfold trim
  rw [trimStart_trimStart]

theorem trim_trimEnd (s : JSString) : trim (trimEnd s) = trim s := by
  unfold trim
  rw [trimStart_trimEnd, trimEnd_trimEnd]

theorem trim_eq_nil_iff (s : JSString) : trim s = [] ↔ ∀ c ∈ s, isWhiteSpace c = true := by
  unfold trim
  rw [trimEnd_eq_nil_iff]
  constructor
  · intro h
    apply (trimStart_eq_nil_iff s).1
    by_contra hne
    obtain ⟨a, t, hat⟩ := List.exists_cons_of_ne_nil hne
    have h1 := head_trimStart s a (by rw [hat]; rfl)
    have h2 := h a (by rw [hat]; exact List.mem_cons_self _ _)
    rw [h1] at h2
    exact absurd h2 (by simp)
  · intro h c hc
    exact h c ((trimStart_isSuffixOf s).mem hc)

theorem visible_trimStart (s : JSString) : visible (trimStart s) = visible s := by
  induction s with
  | nil => rfl
  | cons c r ih =>
    by_cases hc : isWhiteSpace c = true
    · have hs : trimStart (c :: r) = trimStart r := by
        simp [trimStart, List.dropWhile_cons, hc]
      rw [hs, ih]
      simp [visible, List.filter_cons, hc]
    · have hs : trimStart (c :: r) = c :: r := by
        simp [trimStart, List.dropWhile_cons, hc]
      rw [hs]

theorem visible_reverse (s : JSString) : visible s.reverse = (visible s).reverse := by
  simp [visible]

theorem visible_trimEnd (s : JSString) : visible (trimEnd s) = visible s := by
  have h := visible_trimStart s.reverse
  unfold trimEnd
  unfold trimStart at h
  rw [visible_reverse, h, visible_reverse, List.reverse_reverse]

theorem visible_trim (s : JSString) : visible (trim s) = visible s := by
  unfold trim
  rw [visible_trimEnd, visible_trimStart]

/-! ## Segments and joined segments -/

theorem segment_of {p : JSString} (hd : NoDouble p) (hne : p ≠ [])
    (hhead : ∀ a, p.head? = some a → a ≠ LF) (hlast : ∀ a, p.getLast? = some a → a ≠ LF) :
    Segment p := by
  refine ⟨hd, ?_, ?_⟩
  · obtain ⟨a, t, rfl⟩ := List.exists_cons_of_ne_nil hne
    exact ⟨a, rfl, hhead a rfl⟩
  · have h := List.getLast?_eq_getLast p hne
    exact ⟨_, h, hlast _ h⟩

theorem noDouble_of_no_line_end (p : JSString) (h : ∀ c ∈ p, c ≠ LF ∧ c ≠ CR) :
    NoDouble p := by
  induction p with
  | nil => exact List.chain'_nil
  | cons a t ih =>
    refine List.chain'_cons'.2 ⟨?_, ih (fun c hc => h c (List.mem_cons_of_mem _ hc))⟩
    intro y _ hay
    have ha := h a (List.mem_cons_self _ _)
    rcases hay.2 with h1 | h1
    · exact ha.1 h1
    · exact ha.2 h1

theorem noDouble_of_no_double (s : JSString) (hLF : ¬ [LF, LF] <:+: s)
    (hCR : ¬ [CR, CR] <:+: s) : NoDouble s := by
  induction s with
  | nil => exact List.chain'_nil
  | cons a t ih =>
    have hsuf : t <:+: a :: t := (List.suffix_cons a t).isInfix
    refine List.chain'_cons'.2 ⟨?_, ih (fun h => hLF (h.trans hsuf)) (fun h => hCR (h.trans hsuf))⟩
    intro y hy hay
    obtain ⟨t', rfl⟩ := List.head?_eq_some_iff.1 hy
    obtain ⟨hab, h1 | h1⟩ := hay
    · apply hLF
      rw [← hab, h1]
      exact (List.prefix_append [LF, LF] t').isInfix
    · apply hCR
      rw [← hab, h1]
      exact (List.prefix_append [CR, CR] t').isInfix

theorem segment_of_no_line_end {p : JSString} (h : ∀ c ∈ p, c ≠ LF ∧ c ≠ CR) (hne : p ≠ []) :
    Segment p :=
  segment_of (noDouble_of_no_line_end p h) hne
    (fun a ha => (h a (List.mem_of_mem_head? ha)).1)
    (fun a ha => (h a (List.mem_of_getLast?_eq_some ha)).1)

theorem ne_LF_of_not_whiteSpace {a : Nat} (h : isWhiteSpace a = false) : a ≠ LF := by
  intro ha
  rw [ha, isWhiteSpace_LF] at h
  exact absurd h (by simp)

theorem segment_of_trimmed {p : JSString} (hne : p ≠ []) (ht : Trimmed p) (hd : NoDouble p) :
    Segment p :=
  segment_of hd hne (fun a ha => ne_LF_of_not_whiteSpace (ht.1 a ha))
    (fun a ha => ne_LF_of_not_whiteSpace (ht.2 a ha))

theorem intercalate_cons_of_ne_nil (sep p : JSString) (l : List JSString) (hl : l ≠ []) :
    List.intercalate sep (p :: l) = p ++ (sep ++ List.intercalate sep l) := by
  obtain ⟨q, ps, rfl⟩ := List.exists_cons_of_ne_nil hl
  exact intercalate_cons_cons sep p q ps

theorem intercalate_ne_nil {l : List JSString} {x : JSString} (hx : x ∈ l) (hne : x ≠ []) :
    List.intercalate [LF, LF] l ≠ [] := by
  cases l with
  | nil => simp at hx
  | cons a t =>
    cases t with
    | nil =>
      simp only [List.mem_singleton] at hx
      rw [intercalate_singleton, ← hx]
      exact hne
    | cons b t' =>
      rw [intercalate_cons_cons]
      simp

theorem split_intercalate (l : List JSString) (hl : l ≠ []) (h : ∀ x ∈ l, Segment x) :
    split (List.intercalate [LF, LF] l) = l := by
  obtain ⟨p, ps, rfl⟩ := List.exists_cons_of_ne_nil hl
  have hp := h p (List.mem_cons_self _ _)
  unfold split
  rw [splitScan_intercalate ps p [] hp.1 hp.2.2 (fun q hq => h q (List.mem_cons_of_mem _ hq))]
  rfl

theorem trimStart_intercalate (p : JSString) (ps : List JSString) (h : trimStart p ≠ []) :
    trimStart (List.intercalate [LF, LF] (p :: ps)) =
      List.intercalate [LF, LF] (trimStart p :: ps) := by
  have hne : ¬ (trimStart p).isEmpty = true := by
    rw [List.isEmpty_iff]
    exact h
  cases ps with
  | nil => rw [intercalate_singleton, intercalate_singleton]
  | cons q ps =>
    rw [intercalate_cons_cons, trimStart_append, if_neg hne, intercalate_cons_cons]

theorem trimEnd_intercalate (segs : List JSString) :
    segs ≠ [] → (∀ x ∈ segs, trimEnd x ≠ []) →
      ∃ init last, segs = init ++ [last] ∧
        trimEnd (List.intercalate [LF, LF] segs) =
          List.intercalate [LF, LF] (init ++ [trimEnd last]) := by
  induction segs with
  | nil => intro h; exact absurd rfl h
  | cons x rest ih =>
    intro _ hall
    cases rest with
    | nil =>
      refine ⟨[], x, rfl, ?_⟩
      rw [intercalate_singleton, List.nil_append, intercalate_singleton]
    | cons q ps =>
      obtain ⟨init, last, hsplit, htrim⟩ :=
        ih (List.cons_ne_nil q ps) (fun y hy => hall y (List.mem_cons_of_mem _ hy))
      have hlast : trimEnd last ≠ [] := by
        apply hall
        rw [hsplit]
        simp
      have hne : List.intercalate [LF, LF] (init ++ [trimEnd last]) ≠ [] :=
        intercalate_ne_nil (x := trimEnd last) (by simp) hlast
      have h1 : ¬ (trimEnd (List.intercalate [LF, LF] (q :: ps))).isEmpty = true := by
        rw [List.isEmpty_iff, htrim]
        exact hne
      have h2 : ¬ (trimEnd ([LF, LF] ++ List.intercalate [LF, LF] (q :: ps))).isEmpty = true := by
        rw [trimEnd_append, if_neg h1, List.isEmpty_iff]
        simp
      refine ⟨x :: init, last, by rw [hsplit]; rfl, ?_⟩
      rw [intercalate_cons_cons, trimEnd_append, if_neg h2, trimEnd_append, if_neg h1, htrim]
      exact (intercalate_cons_of_ne_nil [LF, LF] x (init ++ [trimEnd last]) (by simp)).symm

/-! ## The paragraphs -/

theorem mem_paragraphs {s p : JSString} (h : p ∈ paragraphs s) :
    p ≠ [] ∧ Trimmed p ∧ NoDouble p := by
  unfold paragraphs at h
  obtain ⟨hmem, hne⟩ := List.mem_filter.1 h
  obtain ⟨q, hq, rfl⟩ := List.mem_map.1 hmem
  refine ⟨?_, trimmed_trim q, ?_⟩
  · intro h0
    rw [h0] at hne
    simp at hne
  · have hq2 : NoDouble q :=
      splitScan_noDouble (trim s) 0 [] List.chain'_nil (fun h => absurd h (Nat.lt_irrefl 0))
        (fun a cur' h => by simp at h) q hq
    exact List.Chain'.infix hq2 (trim_isInfixOf q)

theorem paragraphs_nil : paragraphs [] = [] := by decide

theorem filter_nonempty_of_forall (l : List JSString) (h : ∀ x ∈ l, x ≠ []) :
    l.filter (fun p => !p.isEmpty) = l := by
  rw [List.filter_eq_self]
  intro a ha
  have := h a ha
  cases a with
  | nil => exact absurd rfl this
  | cons _ _ => rfl

theorem visible_append (a b : JSString) : visible (a ++ b) = visible a ++ visible b := by
  simp [visible]

theorem flatten_map_visible (l : List JSString) :
    (l.map visible).flatten = visible l.flatten := by
  induction l with
  | nil => rfl
  | cons a t ih => rw [List.map_cons, List.flatten_cons, List.flatten_cons, visible_append, ih]

theorem visible_flatten_trimmed (l : List JSString) :
    visible ((l.map trim).filter (fun p => !p.isEmpty)).flatten = visible l.flatten := by
  induction l with
  | nil => rfl
  | cons a t ih =>
    rw [List.map_cons, List.flatten_cons, visible_append, ← visible_trim a, ← ih]
    cases h : trim a with
    | nil => simp [List.filter_cons, visible]
    | cons c r => rw [List.filter_cons_of_pos (by rfl), List.flatten_cons, visible_append]

theorem mapWithIndex_length {α β : Type} (f : α → Nat → β) (l : List α) :
    ∀ k, (mapWithIndex f k l).length = l.length := by
  induction l with
  | nil => intro k; rfl
  | cons a t ih => intro k; simp [mapWithIndex, ih]

theorem mapWithIndex_getElem? {α β : Type} (f : α → Nat → β) (l : List α) :
    ∀ k i, (mapWithIndex f k l)[i]? = (l[i]?).map (fun a => f a (k + i)) := by
  induction l with
  | nil => intro k i; simp [mapWithIndex]
  | cons a t ih =>
    intro k i
    cases i with
    | zero => simp [mapWithIndex]
    | succ j =>
      simp only [mapWithIndex, List.getElem?_cons_succ, ih]
      congr 1
      funext x
      congr 1
      omega

theorem contentChildren_cons (c : Nat) (rest : JSString) (ps : List JSString) :
    contentChildren ((c :: rest) :: ps) =
      .elem "p" "paragraph" [] none
        [.elem "span" "dropcap" [("aria-hidden", "true")] none [.text [c]], .text rest] ::
      mapWithIndex plainParagraph 0 ps := by
  simp [contentChildren, renderWithDropcap]

theorem Description_str_of_ne_nil {s : JSString} (h : s ≠ []) :
    Description (.str s) =
      some (.elem "section" "description"
        [("role", "article"), ("aria-label", "Описание рецепта")] none
        [.elem "header" "header" [] none
           [.elem "h3" "title" [] none [.text (js "Описание")],
            .elem "div" "decor" [] none []],
         .elem "div" "content" [] none (contentChildren (paragraphs s))]) := by
  cases s with
  | nil => exact absurd rfl h
  | cons a t => rfl

theorem trimEnd_ne_nil_of_trim {x : JSString} (h : trim x ≠ []) : trimEnd x ≠ [] := by
  intro h0
  exact h ((trim_eq_nil_iff x).2 ((trimEnd_eq_nil_iff x).1 h0))

theorem trimStart_ne_nil_of_trim {x : JSString} (h : trim x ≠ []) : trimStart x ≠ [] := by
  intro h0
  exact h ((trim_eq_nil_iff x).2 ((trimStart_eq_nil_iff x).1 h0))

/-- Segments without line ends, none of them blank, joined by `"\n\n"`: the
paragraphs are the trimmed segments. -/
theorem paragraphs_intercalate (segs : List JSString) (hne : segs ≠ [])
    (hsegs : ∀ s ∈ segs, (∀ c ∈ s, c ≠ LF ∧ c ≠ CR) ∧ trim s ≠ []) :
    paragraphs (List.intercalate [LF, LF] segs) = segs.map trim := by
  obtain ⟨s, rest, rfl⟩ := List.exists_cons_of_ne_nil hne
  have hs := hsegs s (List.mem_cons_self _ _)
  have hall1 : ∀ x ∈ trimStart s :: rest, (∀ c ∈ x, c ≠ LF ∧ c ≠ CR) ∧ trim x ≠ [] := by
    intro x hx
    rcases List.mem_cons.1 hx with hx | hx
    · subst hx
      refine ⟨fun c hc => hs.1 c ((trimStart_isSuffixOf s).mem hc), ?_⟩
      rw [trim_trimStart]
      exact hs.2
    · exact hsegs x (List.mem_cons_of_mem _ hx)
  obtain ⟨init, last, hsplit, hend⟩ := trimEnd_intercalate (trimStart s :: rest)
    (List.cons_ne_nil _ _) (fun x hx => trimEnd_ne_nil_of_trim (hall1 x hx).2)
  have hlast : last ∈ trimStart s :: rest := by
    rw [hsplit]
    simp
  have hall2 : ∀ x ∈ init ++ [trimEnd last], (∀ c ∈ x, c ≠ LF ∧ c ≠ CR) ∧ trim x ≠ [] := by
    intro x hx
    rcases List.mem_append.1 hx with hx | hx
    · exact hall1 x (by rw [hsplit]; exact List.mem_append_left _ hx)
    · simp only [List.mem_singleton] at hx
      subst hx
      refine ⟨fun c hc => (hall1 last hlast).1 c ((trimEnd_isPrefixOf last).mem hc), ?_⟩
      rw [trim_trimEnd]
      exact (hall1 last hlast).2
  have htrim : trim (List.intercalate [LF, LF] (s :: rest)) =
      List.intercalate [LF, LF] (init ++ [trimEnd last]) := by
    unfold trim
    rw [trimStart_intercalate s rest (trimStart_ne_nil_of_trim hs.2), hend]
  have hmap : (init ++ [trimEnd last]).map trim = (s :: rest).map trim := by
    have h1 : (init ++ [trimEnd last]).map trim = (init ++ [last]).map trim := by
      simp [trim_trimEnd]
    rw [h1, ← hsplit, List.map_cons, List.map_cons, trim_trimStart]
  unfold paragraphs
  rw [htrim, split_intercalate _ (by simp) (fun x hx =>
    segment_of_no_line_end (hall2 x hx).1 (fun h0 => (hall2 x hx).2 (by rw [h0]; rfl))), hmap]
  apply filter_nonempty_of_forall
  intro x hx
  obtain ⟨y, hy, rfl⟩ := List.mem_map.1 hx
  exact (hsegs y hy).2

/-! ## The regular expression on strings that do not mix line ends -/

theorem unmixed_of_no_pair (s : JSString) (h1 : ¬ [LF, CR] <:+: s) (h2 : ¬ [CR, LF] <:+: s) :
    Unmixed s := by
  induction s with
  | nil => exact List.chain'_nil
  | cons a t ih =>
    have hsuf : t <:+: a :: t := (List.suffix_cons a t).isInfix
    refine List.chain'_cons'.2 ⟨?_, ih (fun h => h1 (h.trans hsuf)) (fun h => h2 (h.trans hsuf))⟩
    intro y hy hay
    obtain ⟨t', rfl⟩ := List.head?_eq_some_iff.1 hy
    rcases hay with ⟨ha, hb⟩ | ⟨ha, hb⟩
    · apply h1
      rw [ha, hb]
      exact (List.prefix_append [LF, CR] t').isInfix
    · apply h2
      rw [ha, hb]
      exact (List.prefix_append [CR, LF] t').isInfix

theorem takeWhile_line_end (c : Nat) (hc : c = LF ∨ c = CR) (t : JSString) :
    Unmixed (c :: t) →
      (c :: t).takeWhile (fun x => x == LF || x == CR) = (c :: t).takeWhile (fun x => x == c) := by
  have hcc : (c == LF || c == CR) = true := by
    rcases hc with h | h <;> subst h <;> decide
  induction t with
  | nil =>
    intro _
    simp [List.takeWhile_cons, hcc]
  | cons d t ih =>
    intro h
    have hd := (List.chain'_cons.1 h).1
    have htail := (List.chain'_cons.1 h).2
    by_cases hdc : d = c
    · subst hdc
      have h2 := ih htail
      simp only [List.takeWhile_cons, hcc, beq_self_eq_true, if_true, List.cons.injEq,
        true_and] at h2 ⊢
      exact h2
    · have hdl : (d == LF || d == CR) = false := by
        rcases hc with h0 | h0
        · subst h0
          have : d ≠ CR := fun hh => hd (Or.inl ⟨rfl, hh⟩)
          simp [hdc, this]
        · subst h0
          have : d ≠ LF := fun hh => hd (Or.inr ⟨rfl, hh⟩)
          simp [hdc, this]
      have hdc2 : (d == c) = false := by simpa using hdc
      simp only [List.takeWhile_cons, hcc, hdl, hdc2, beq_self_eq_true, if_true]
      rfl

theorem specBoundary_eq (t : JSString) (h : Unmixed t) :
    specBoundary t = paragraphBoundary t := by
  cases t with
  | nil => rfl
  | cons c t =>
    by_cases h1 : c = LF
    · subst h1
      have hCR : matchRun CR (LF :: t) = none := by
        simp [matchRun, List.takeWhile_cons, LF, CR]
      unfold specBoundary paragraphBoundary
      rw [takeWhile_line_end LF (Or.inl rfl) t h, hCR]
      unfold matchRun
      split <;> rfl
    · by_cases h2 : c = CR
      · subst h2
        have hLF : matchRun LF (CR :: t) = none := by
          simp [matchRun, List.takeWhile_cons, LF, CR]
        unfold specBoundary paragraphBoundary
        rw [takeWhile_line_end CR (Or.inr rfl) t h, hLF]
        rfl
      · have hLF : matchRun LF (c :: t) = none := by
          simp [matchRun, List.takeWhile_cons, h1]
        have hCR : matchRun CR (c :: t) = none := by
          simp [matchRun, List.takeWhile_cons, h2]
        unfold paragraphBoundary
        rw [hLF, hCR]
        simp [specBoundary, List.takeWhile_cons, h1, h2]

theorem splitScan_specBoundary (t : JSString) :
    Unmixed t → ∀ (skip : Nat) (cur : JSString),
      splitScan specBoundary skip cur t = splitScan paragraphBoundary skip cur t := by
  induction t with
  | nil =>
    intro _ skip cur
    rw [splitScan_nil, splitScan_nil]
  | cons c t ih =>
    intro h skip cur
    have htail : Unmixed t := List.Chain'.tail h
    cases skip with
    | succ k => rw [splitScan_skip, splitScan_skip, ih htail]
    | zero =>
      have hs := specBoundary_eq (c :: t) h
      cases hb : paragraphBoundary (c :: t) with
      | none =>
        rw [hb] at hs
        rw [splitScan_none hb, splitScan_none hs, ih htail]
      | some n =>
        obtain ⟨h2, _⟩ := paragraphBoundary_some hb
        obtain ⟨e, rfl⟩ : ∃ e, n = e + 1 := ⟨n - 1, by omega⟩
        rw [hb] at hs
        rw [splitScan_some hb, splitScan_some hs, ih htail]

/-! ## The paragraph boundary, the absent description, the item key -/

/-- C1, refuted as stated: on `"a\r\n\r\nb"`, whose two lines are separated
by a blank line with CRLF line ends, the component computes the single
paragraph `"a\r\n\r\nb"`, while cutting at runs of newline and carriage-return
characters that may mix the two gives the two paragraphs `"a"` and `"b"`; on
`"a\r\nb"`, with one CRLF line break, the component again computes one
paragraph and the cutting at mixed runs gives two. -/
theorem paragraphs_crlf_blank_line :
    paragraphs (js "a\r\n\r\nb") = [js "a\r\n\r\nb"] ∧
    specParagraphs (js "a\r\n\r\nb") = [js "a", js "b"] ∧
    paragraphs (js "a\r\n\r\nb") ≠ specParagraphs (js "a\r\n\r\nb") ∧
    paragraphs (js "a\r\nb") = [js "a\r\nb"] ∧
    specParagraphs (js "a\r\nb") = [js "a", js "b"] := by
  decide

/-- C1, amended: for a description in which no newline stands next to a
carriage return, the paragraphs of the component are the result of trimming
the text, cutting it at every maximal run of two or more code units that are
newlines or carriage returns, trimming each segment and dropping the empty
ones. -/
theorem paragraphs_eq_specParagraphs (description : JSString)
    (h1 : ¬ [LF, CR] <:+: description) (h2 : ¬ [CR, LF] <:+: description) :
    paragraphs description = specParagraphs description := by
  have h : Unmixed (trim description) :=
    List.Chain'.infix (unmixed_of_no_pair description h1 h2) (trim_isInfixOf description)
  unfold paragraphs specParagraphs split
  rw [splitScan_specBoundary (trim description) h]

/-- Witness of C1 as amended, at a description with runs of newlines and runs
of carriage returns. -/
theorem paragraphs_eq_specParagraphs_witness :
    paragraphs (js " a\n\n\nb\r\r c\rd\n ") = [js "a", js "b", js "c\rd"] ∧
    paragraphs (js " a\n\n\nb\r\r c\rd\n ") = specParagraphs (js " a\n\n\nb\r\r c\rd\n ") :=
  ⟨by decide, paragraphs_eq_specParagraphs (js " a\n\n\nb\r\r c\rd\n ") (by decide) (by decide)⟩

/-- C4: for the absent description (`undefined` or `null`) and for the empty
string the component returns `null`, a value and not an exception and not a
section with an empty content container. -/
theorem Description_absent_or_empty :
    Description .undefined = none ∧ Description .null = none ∧
    Description (.str (js "")) = none := by
  refine ⟨rfl, rfl, rfl⟩

/-- C8: the key of a list item is not injective: the records
`(a, "1", g)` and `(a1, "", g)` differ and get the same key `a1g`. -/
theorem ingredientKey_not_injective :
    (⟨js "a", .str (js "1"), js "g"⟩ : IngredientRecord) ≠ ⟨js "a1", .str (js ""), js "g"⟩ ∧
    ingredientKey ⟨js "a", .str (js "1"), js "g"⟩ =
      ingredientKey ⟨js "a1", .str (js ""), js "g"⟩ ∧
    ¬ Function.Injective ingredientKey := by
  have hne : (⟨js "a", .str (js "1"), js "g"⟩ : IngredientRecord) ≠
      ⟨js "a1", .str (js ""), js "g"⟩ := by
    intro h
    have h1 := congrArg IngredientRecord.name h
    revert h1
    decide
  have hkey : ingredientKey ⟨js "a", .str (js "1"), js "g"⟩ =
      ingredientKey ⟨js "a1", .str (js ""), js "g"⟩ := by decide
  exact ⟨hne, hkey, fun hinj => hne (hinj hkey)⟩

/-! ## `Description` -/

/-- C9: splitting loses no visible text: the non-whitespace code units of the
paragraphs, concatenated in paragraph order, are the non-whitespace code units
of the description in their order. -/
theorem paragraphs_visible (description : JSString) :
    ((paragraphs description).map visible).flatten = visible description := by
  rw [flatten_map_visible]
  unfold paragraphs
  rw [visible_flatten_trimmed]
  unfold split
  rw [visible_splitScan (trim description) 0 [] (by simp)]
  exact visible_trim description

/-- C7: when the description has a first paragraph `p`, that paragraph is
rendered as the dropcap span holding the one code unit `c` that `p` starts
with, followed by the remainder `rest`, where `c` and then `rest` make up `p`. -/
theorem Description_dropcap (s p : JSString) (ps : List JSString)
    (h : paragraphs s = p :: ps) :
    ∃ c rest, [c] ++ rest = p ∧ [c].length = 1 ∧
      renderWithDropcap p = some (.elem "p" "paragraph" [] none
        [.elem "span" "dropcap" [("aria-hidden", "true")] none [.text [c]], .text rest]) ∧
      ∃ attrs header more, Description (.str s) =
        some (.elem "section" "description" attrs none
          [header, .elem "div" "content" [] none
            (.elem "p" "paragraph" [] none
              [.elem "span" "dropcap" [("aria-hidden", "true")] none [.text [c]],
               .text rest] :: more)]) := by
  have hs : s ≠ [] := by
    intro h0
    rw [h0, paragraphs_nil] at h
    exact absurd h (by simp)
  have hp : p ≠ [] := (mem_paragraphs (s := s) (p := p) (by rw [h]; simp)).1
  obtain ⟨c, rest, rfl⟩ := List.exists_cons_of_ne_nil hp
  refine ⟨c, rest, rfl, rfl, rfl, ?_⟩
  rw [Description_str_of_ne_nil hs, h, contentChildren_cons]
  exact ⟨_, _, _, rfl⟩

/-- Witness of C7: the first paragraph `Mix well.` is rendered as the dropcap
`M` followed by `ix well.`. -/
theorem Description_dropcap_witness :
    paragraphs (js "Mix well.\n\nBake at 200C.") = js "Mix well." :: [js "Bake at 200C."] ∧
    ∃ c rest, [c] ++ rest = js "Mix well." ∧ [c].length = 1 ∧
      renderWithDropcap (js "Mix well.") = some (.elem "p" "paragraph" [] none
        [.elem "span" "dropcap" [("aria-hidden", "true")] none [.text [c]], .text rest]) ∧
      ∃ attrs header more, Description (.str (js "Mix well.\n\nBake at 200C.")) =
        some (.elem "section" "description" attrs none
          [header, .elem "div" "content" [] none
            (.elem "p" "paragraph" [] none
              [.elem "span" "dropcap" [("aria-hidden", "true")] none [.text [c]],
               .text rest] :: more)]) :=
  ⟨by decide, Description_dropcap (js "Mix well.\n\nBake at 200C.") (js "Mix well.")
    [js "Bake at 200C."] (by decide)⟩

/-- C2: for `N ≥ 1` segments, each without a newline or carriage return and
each non-empty after trimming, joined by `"\n\n"`: the paragraphs are the `N`
trimmed segments in their order; the content container holds first the trimmed
first segment rendered with the dropcap and then the other `N - 1` trimmed
segments, each as a plain paragraph. -/
theorem Description_joined_segments (segs : List JSString) (hN : 1 ≤ segs.length)
    (hsegs : ∀ s ∈ segs, (∀ c ∈ s, c ≠ LF ∧ c ≠ CR) ∧ trim s ≠ []) :
    paragraphs (List.intercalate [LF, LF] segs) = segs.map trim ∧
    (paragraphs (List.intercalate [LF, LF] segs)).length = segs.length ∧
    ∃ attrs header first plain,
      Description (.str (List.intercalate [LF, LF] segs)) =
        some (.elem "section" "description" attrs none
          [header, .elem "div" "content" [] none (first :: plain)]) ∧
      (∃ seg c rest, segs[0]? = some seg ∧ trim seg = c :: rest ∧
        first = .elem "p" "paragraph" [] none
          [.elem "span" "dropcap" [("aria-hidden", "true")] none [.text [c]], .text rest]) ∧
      plain.length + 1 = segs.length ∧
      ∀ (i : Nat) (seg : JSString), segs[i + 1]? = some seg →
        ∃ key, plain[i]? = some (.elem "p" "paragraph" [] key [.text (trim seg)]) := by
  have hne : segs ≠ [] := by
    intro h0
    rw [h0] at hN
    simp at hN
  have hpar := paragraphs_intercalate segs hne hsegs
  obtain ⟨s, rest, rfl⟩ := List.exists_cons_of_ne_nil hne
  have hs := hsegs s (List.mem_cons_self _ _)
  have hjoin : List.intercalate [LF, LF] (s :: rest) ≠ [] :=
    intercalate_ne_nil (x := s) (List.mem_cons_self _ _) (fun h0 => hs.2 (by rw [h0]; rfl))
  obtain ⟨c, r, hcr⟩ := List.exists_cons_of_ne_nil hs.2
  refine ⟨hpar, by rw [hpar, List.length_map], ?_⟩
  rw [Description_str_of_ne_nil hjoin, hpar, List.map_cons, hcr, contentChildren_cons]
  refine ⟨_, _, _, _, rfl, ⟨s, c, r, by simp, hcr, rfl⟩, ?_, ?_⟩
  · rw [mapWithIndex_length, List.length_map, List.length_cons]
  · intro i seg hseg
    rw [List.getElem?_cons_succ] at hseg
    refine ⟨some (.index (0 + i)), ?_⟩
    rw [mapWithIndex_getElem?, List.getElem?_map, hseg]
    rfl

/-- Witness of C2: `"Mix well.\n\nBake at 200C."` has the two paragraphs
`Mix well.` and `Bake at 200C.`. -/
theorem Description_joined_segments_witness :
    List.intercalate [LF, LF] mixBake = js "Mix well.\n\nBake at 200C." ∧
    mixBake.map trim = [js "Mix well.", js "Bake at 200C."] ∧
    (paragraphs (List.intercalate [LF, LF] mixBake) = mixBake.map trim ∧
    (paragraphs (List.intercalate [LF, LF] mixBake)).length = mixBake.length ∧
    ∃ attrs header first plain,
      Description (.str (List.intercalate [LF, LF] mixBake)) =
        some (.elem "section" "description" attrs none
          [header, .elem "div" "content" [] none (first :: plain)]) ∧
      (∃ seg c rest, mixBake[0]? = some seg ∧ trim seg = c :: rest ∧
        first = .elem "p" "paragraph" [] none
          [.elem "span" "dropcap" [("aria-hidden", "true")] none [.text [c]], .text rest]) ∧
      plain.length + 1 = mixBake.length ∧
      ∀ (i : Nat) (seg : JSString), mixBake[i + 1]? = some seg →
        ∃ key, plain[i]? = some (.elem "p" "paragraph" [] key [.text (trim seg)])) :=
  ⟨by decide, by decide, Description_joined_segments mixBake (by decide) (by decide)⟩

/-- C3, refuted as stated: the description `" "` is not empty and has no two
consecutive newlines and no two consecutive carriage returns, yet it has no
paragraph at all, and the component returns the section with an empty content
container. -/
theorem Description_blank_no_paragraph :
    js " " ≠ [] ∧ ¬ [LF, LF] <:+: js " " ∧ ¬ [CR, CR] <:+: js " " ∧
    (paragraphs (js " ")).length ≠ 1 ∧
    Description (.str (js " ")) =
      some (.elem "section" "description"
        [("role", "article"), ("aria-label", "Описание рецепта")] none
        [.elem "header" "header" [] none
           [.elem "h3" "title" [] none [.text (js "Описание")],
            .elem "div" "decor" [] none []],
         .elem "div" "content" [] none []]) := by
  refine ⟨by decide, by decide, by decide, by decide, rfl⟩

/-- C3, amended: a description that holds a code unit that is not whitespace,
and has no two consecutive newlines and no two consecutive carriage returns,
has exactly one paragraph, the trimmed description, and the content container
holds just that paragraph, rendered with the dropcap. -/
theorem Description_single_paragraph (s : JSString)
    (hvis : ∃ c ∈ s, isWhiteSpace c = false)
    (hLF : ¬ [LF, LF] <:+: s) (hCR : ¬ [CR, CR] <:+: s) :
    paragraphs s = [trim s] ∧ (paragraphs s).length = 1 ∧
    ∃ c rest, trim s = c :: rest ∧
      ∃ attrs header, Description (.str s) =
        some (.elem "section" "description" attrs none
          [header, .elem "div" "content" [] none
            [.elem "p" "paragraph" [] none
              [.elem "span" "dropcap" [("aria-hidden", "true")] none [.text [c]],
               .text rest]]]) := by
  have hne : trim s ≠ [] := by
    intro h0
    obtain ⟨c, hc, hws⟩ := hvis
    have := (trim_eq_nil_iff s).1 h0 c hc
    rw [hws] at this
    exact absurd this (by simp)
  have hs : s ≠ [] := by
    intro h0
    rw [h0] at hne
    exact hne rfl
  have hd : NoDouble (trim s) :=
    List.Chain'.infix (noDouble_of_no_double s hLF hCR) (trim_isInfixOf s)
  have hsplit : split (trim s) = [trim s] := by
    have h := splitScan_append_noDouble (trim s) [] [] hd (by simp)
    rw [List.append_nil] at h
    unfold split
    rw [h, splitScan_nil]
    simp
  have hpar : paragraphs s = [trim s] := by
    unfold paragraphs
    rw [hsplit, List.map_singleton, trim_trim]
    exact filter_nonempty_of_forall [trim s] (by simpa using hne)
  obtain ⟨c, rest, hcr⟩ := List.exists_cons_of_ne_nil hne
  refine ⟨hpar, by rw [hpar]; rfl, c, rest, hcr, ?_⟩
  rw [Description_str_of_ne_nil hs, hpar, hcr, contentChildren_cons]
  exact ⟨_, _, rfl⟩

/-- Witness of C3 as amended, at the description `" Mix\nwell. "`. -/
theorem Description_single_paragraph_witness :
    paragraphs (js " Mix\nwell. ") = [trim (js " Mix\nwell. ")] ∧
    (paragraphs (js " Mix\nwell. ")).length = 1 ∧
    ∃ c rest, trim (js " Mix\nwell. ") = c :: rest ∧
      ∃ attrs header, Description (.str (js " Mix\nwell. ")) =
        some (.elem "section" "description" attrs none
          [header, .elem "div" "content" [] none
            [.elem "p" "paragraph" [] none
              [.elem "span" "dropcap" [("aria-hidden", "true")] none [.text [c]],
               .text rest]]]) :=
  Description_single_paragraph (js " Mix\nwell. ") ⟨77, by decide, by decide⟩
    (by decide) (by decide)

/-- C10: re-joining is stable: when the description has a paragraph, joining
its paragraphs with `"\n\n"` and computing the paragraphs of the result gives
the same list. -/
theorem paragraphs_rejoin (s : JSString) (h : paragraphs s ≠ []) :
    paragraphs (List.intercalate [LF, LF] (paragraphs s)) = paragraphs s := by
  obtain ⟨p, ps, hps⟩ := List.exists_cons_of_ne_nil h
  have hall : ∀ x ∈ p :: ps, x ≠ [] ∧ Trimmed x ∧ NoDouble x := by
    intro x hx
    rw [← hps] at hx
    exact mem_paragraphs hx
  have hp := hall p (List.mem_cons_self _ _)
  have hstart : trimStart (List.intercalate [LF, LF] (p :: ps)) =
      List.intercalate [LF, LF] (p :: ps) := by
    have hpp : trimStart p = p := trimStart_of_head hp.2.1.1
    have h1 := trimStart_intercalate p ps (by rw [hpp]; exact hp.1)
    rwa [hpp] at h1
  have hend : trimEnd (List.intercalate [LF, LF] (p :: ps)) =
      List.intercalate [LF, LF] (p :: ps) := by
    obtain ⟨init, last, hsplit, htrim⟩ := trimEnd_intercalate (p :: ps) (List.cons_ne_nil _ _)
      (fun x hx => by
        rw [trimEnd_of_getLast (hall x hx).2.1.2]
        exact (hall x hx).1)
    have hlast : trimEnd last = last :=
      trimEnd_of_getLast (hall last (by rw [hsplit]; simp)).2.1.2
    rw [htrim, hlast, ← hsplit]
  have htrim : trim (List.intercalate [LF, LF] (p :: ps)) =
      List.intercalate [LF, LF] (p :: ps) := by
    unfold trim
    rw [hstart, hend]
  have hmap : (p :: ps).map trim = p :: ps := by
    rw [List.map_congr_left (fun x hx => trim_of_trimmed (hall x hx).2.1)]
    exact List.map_id _
  rw [hps]
  unfold paragraphs
  rw [htrim, split_intercalate (p :: ps) (List.cons_ne_nil _ _)
    (fun x hx => segment_of_trimmed (hall x hx).1 (hall x hx).2.1 (hall x hx).2.2), hmap]
  exact filter_nonempty_of_forall (p :: ps) (fun x hx => (hall x hx).1)

/-- Witness of C10 at a description with mixed line ends and blank lines. -/
theorem paragraphs_rejoin_witness :
    paragraphs (js " a\r\nb\n\n\n c\r\r\n d ") ≠ [] ∧
    paragraphs (List.intercalate [LF, LF] (paragraphs (js " a\r\nb\n\n\n c\r\r\n d "))) =
      paragraphs (js " a\r\nb\n\n\n c\r\r\n d ") :=
  ⟨by decide, paragraphs_rejoin (js " a\r\nb\n\n\n c\r\r\n d ") (by decide)⟩

/-! ## `Ingredients` -/

/-- C6: the component returns `null` exactly when the prop is `undefined`,
`null`, not an array, or the empty array; for a non-empty array it returns the
region (a `section` with `role="region"`) that holds the list. -/
theorem Ingredients_null_iff :
    (∀ p : IngredientsProp, Ingredients p = none ↔
      (p = .undefined ∨ p = .null ∨ p.isArray = false ∨ p = .array [])) ∧
    (∀ items : List IngredientRecord, items ≠ [] →
      ∃ header, Ingredients (.array items) =
        some (.elem "section" "ingredientsCard"
          [("role", "region"), ("aria-label", "Ингредиенты рецепта")] none
          [header, .elem "ul" "list" [] none (items.map ingredientItem)])) := by
  constructor
  · intro p
    cases p with
    | undefined => simp [Ingredients, IngredientsProp.truthy]
    | null => simp [Ingredients, IngredientsProp.truthy]
    | nonArray t => simp [Ingredients, IngredientsProp.isArray]
    | array items =>
      cases items <;>
        simp [Ingredients, IngredientsProp.truthy, IngredientsProp.isArray,
          IngredientsProp.items]
  · intro items h
    cases items with
    | nil => exact absurd rfl h
    | cons r rs =>
      exact ⟨.elem "header" "header" [] none
        [.elem "h3" "title" [] none [.text (js "Ингредиенты")],
         .elem "div" "decor" [] none []], rfl⟩

/-- Witness of C6 at the one-record array `[(a, "1", g)]`. -/
theorem Ingredients_null_iff_witness :
    ∃ header, Ingredients (.array [⟨js "a", .str (js "1"), js "g"⟩]) =
      some (.elem "section" "ingredientsCard"
        [("role", "region"), ("aria-label", "Ингредиенты рецепта")] none
        [header, .elem "ul" "list" [] none
          ([⟨js "a", .str (js "1"), js "g"⟩].map ingredientItem)]) :=
  Ingredients_null_iff.2 [⟨js "a", .str (js "1"), js "g"⟩] (by simp)

/-- C5: for an array of `N ≥ 1` records the list holds exactly `N` items, the
`i`-th built from the `i`-th record: its name span holds the name, its amount
span holds the amount itself, one space and the measurement unit, so that the
text of the amount span is the amount, a space, the unit. -/
theorem Ingredients_items (rs : List IngredientRecord) (h : 1 ≤ rs.length) :
    ∃ attrs header lis,
      Ingredients (.array rs) =
        some (.elem "section" "ingredientsCard" attrs none
          [header, .elem "ul" "list" [] none lis]) ∧
      lis.length = rs.length ∧
      ∀ (i : Nat) (r : IngredientRecord), rs[i]? = some r →
        ∃ key dot nameSpan amountSpan,
          lis[i]? = some (.elem "li" "item" [] key [nameSpan, dot, amountSpan]) ∧
          nameSpan = .elem "span" "itemName" [] none [.text r.name] ∧
          amountSpan = .elem "span" "itemAmount" [] none
            [r.amount.child, .text [0x20], .text r.measurement_unit] ∧
          nameSpan.textContent = r.name ∧
          amountSpan.textContent = r.amount.toJSString ++ [0x20] ++ r.measurement_unit := by
  cases rs with
  | nil => simp at h
  | cons r0 rs0 =>
    refine ⟨[("role", "region"), ("aria-label", "Ингредиенты рецепта")],
      .elem "header" "header" [] none
        [.elem "h3" "title" [] none [.text (js "Ингредиенты")],
         .elem "div" "decor" [] none []],
      (r0 :: rs0).map ingredientItem, rfl, by simp, ?_⟩
    · intro i r hr
      refine ⟨some (.str (ingredientKey r)), .elem "span" "dot" [("aria-hidden", "true")] none [],
        _, _, ?_, rfl, rfl, ?_, ?_⟩
      · rw [List.getElem?_map, hr]
        rfl
      · simp [VNode.textContent, textContentList]
      · cases ha : r.amount <;>
          simp [VNode.textContent, textContentList, Amount.child, Amount.toJSString]

/-- Witness of C5 at the flour and salt scenario: two items, with the texts
`Flour`, `200 g` and `Salt`, `1 tsp`; the amounts `0.5`, `-1` and `1e21` are
written `0.5`, `-1` and `1e+21`. -/
theorem Ingredients_items_witness :
    1 ≤ flourSalt.length ∧
    (∃ attrs header lis,
      Ingredients (.array flourSalt) =
        some (.elem "section" "ingredientsCard" attrs none
          [header, .elem "ul" "list" [] none lis]) ∧
      lis.length = flourSalt.length ∧
      ∀ (i : Nat) (r : IngredientRecord), flourSalt[i]? = some r →
        ∃ key dot nameSpan amountSpan,
          lis[i]? = some (.elem "li" "item" [] key [nameSpan, dot, amountSpan]) ∧
          nameSpan = .elem "span" "itemName" [] none [.text r.name] ∧
          amountSpan = .elem "span" "itemAmount" [] none
            [r.amount.child, .text [0x20], .text r.measurement_unit] ∧
          nameSpan.textContent = r.name ∧
          amountSpan.textContent = r.amount.toJSString ++ [0x20] ++ r.measurement_unit) ∧
    flourSalt.map (fun r => r.amount.toJSString ++ [0x20] ++ r.measurement_unit) =
      [js "200 g", js "1 tsp"] ∧
    halfMinusHuge.map (fun r => r.amount.toJSString ++ [0x20] ++ r.measurement_unit) =
      [js "0.5 l", js "-1 C", js "1e+21 grains"] :=
  ⟨by decide, Ingredients_items flourSalt (by decide), by decide, by decide⟩

end MyFood
